import Mathlib

/-!
Shallow embedding of the dependency-aware test-selection core of the
FastAPI automation server (src/jira_client.py, src/utils.py,
src/dependency_resolver.py, src/main.py), together with theorems checking
the claims of the specification against it.

Python strings are modelled as Lean `String` / `List Char`; Python `set`
operations in the endpoint are modelled with `Finset String`; fallible
attribute access and tracker calls are modelled with `Option` / `Except`.
-/

namespace AutoServer

/-! ### Python string primitives used by the code -/

/-- Whitespace characters stripped by the Python strip method (ASCII part). -/
def isPySpace (c : Char) : Bool :=
  c == ' ' || c == '\t' || c == '\n' || c == '\r' || c == '\x0B' || c == '\x0C'

/-- Remove trailing `isPySpace` characters. -/
def trimRight : List Char → List Char
  | [] => []
  | c :: rest =>
    let r := trimRight rest
    if r.isEmpty && isPySpace c then [] else c :: r

/-- Python `str.strip()`: remove leading and trailing whitespace. -/
def trimChars (s : List Char) : List Char :=
  trimRight (s.dropWhile isPySpace)

/-- Python `str.split(sep)` for a one-character separator. -/
def splitOnChar (sep : Char) : List Char → List (List Char)
  | [] => [[]]
  | c :: rest =>
    let r := splitOnChar sep rest
    if c == sep then [] :: r
    else
      match r with
      | [] => [[c]]
      | grp :: grps => (c :: grp) :: grps

/-- Python `pat in s` (substring containment). -/
def containsSub (pat : List Char) : List Char → Bool
  | [] => pat.isEmpty
  | c :: rest => List.isPrefixOf pat (c :: rest) || containsSub pat rest

/-- Python `str.lower()` (ASCII). -/
def lowerStr (s : String) : String :=
  String.mk (s.toList.map Char.toLower)

/-! ### Test steps and the step extractor (jira_client.py) -/

/-- One test step, as extracted from an issue description table row. -/
structure TestStep where
  test : String
  test_step : String
  expected_output : String
deriving DecidableEq

/-- Embedding of the cell cleanup: split the line on the pipe character,
strip each cell, and keep only the nonempty stripped cells. -/
def cleanCells (line : List Char) : List (List Char) :=
  ((splitOnChar '|' line).map trimChars).filter (fun cell => !cell.isEmpty)

/-- Body of the pipe-table row loop: a row contributes a step when its
cleaned cells number at least 3, taking the first three cells. -/
def rowTestStep (line : List Char) : Option TestStep :=
  let cells := cleanCells line
  if cells.length ≥ 3 then
    some ⟨String.mk (cells.getD 0 []), String.mk (cells.getD 1 []),
          String.mk (cells.getD 2 [])⟩
  else none

/-- The pipe-table loop of `_extract_test_steps_from_description`,
over the list of lines with the `header_found` flag. -/
def extractPipeLines : List (List Char) → Bool → List TestStep
  | [], _ => []
  | line :: rest, headerFound =>
    if List.isPrefixOf ['|', '|'] line && !headerFound then
      extractPipeLines rest true
    else if List.isPrefixOf ['|'] line && headerFound then
      match rowTestStep line with
      | some st => st :: extractPipeLines rest headerFound
      | none => extractPipeLines rest headerFound
    else
      extractPipeLines rest headerFound

/-- Find the first occurrence of `pat` in `s`; return the text before it and
the text after it (the semantics of one step of `re.findall` scanning). -/
def splitAtSub (pat : List Char) : List Char → Option (List Char × List Char)
  | [] => if pat.isEmpty then some ([], []) else none
  | c :: rest =>
    if List.isPrefixOf pat (c :: rest) then
      some ([], List.drop pat.length (c :: rest))
    else
      match splitAtSub pat rest with
      | some (pre, post) => some (c :: pre, post)
      | none => none

theorem splitAtSub_post_length_lt (pat : List Char) (hp : pat ≠ []) :
    ∀ (s pre post : List Char), splitAtSub pat s = some (pre, post) →
      post.length < s.length := by
  intro s
  induction s with
  | nil =>
    intro pre post h
    simp only [splitAtSub] at h
    rw [if_neg (by simpa using hp)] at h
    exact absurd h (by simp)
  | cons c rest ih =>
    intro pre post h
    simp only [splitAtSub] at h
    by_cases hpre : List.isPrefixOf pat (c :: rest)
    · rw [if_pos hpre] at h
      obtain ⟨-, h2⟩ := Prod.mk.injEq .. ▸ Option.some.injEq .. ▸ h
      subst h2
      have hl : 1 ≤ pat.length := by
        cases pat with
        | nil => exact absurd rfl hp
        | cons a as => simp
      simp only [List.length_drop, List.length_cons]
      omega
    · rw [if_neg hpre] at h
      cases hrec : splitAtSub pat rest with
      | none => rw [hrec] at h; exact absurd h (by simp)
      | some pr =>
        rw [hrec] at h
        obtain ⟨pre', post'⟩ := pr
        obtain ⟨-, h2⟩ := Prod.mk.injEq .. ▸ Option.some.injEq .. ▸ h
        subst h2
        have := ih pre' post' hrec
        simp only [List.length_cons]
        omega

/-- One scanning pass of `re.findall(openTag(.*?)closeTag, s, re.DOTALL)` for
literal, nonempty tags `o :: os` and `c :: cs`. The `fuel` argument only
bounds the number of matches; since every match strictly shortens the
remaining text, `s.length + 1` is always enough
(`findBetweenAux_fuel_irrelevant` below). -/
def findBetweenAux (o : Char) (os : List Char) (c : Char) (cs : List Char) :
    Nat → List Char → List (List Char)
  | 0, _ => []
  | fuel + 1, s =>
    match splitAtSub (o :: os) s with
    | none => []
    | some (_, afterOpen) =>
      match splitAtSub (c :: cs) afterOpen with
      | none => []
      | some (content, afterClose) =>
        content :: findBetweenAux o os c cs fuel afterClose

theorem findBetweenAux_fuel_irrelevant (o : Char) (os : List Char) (c : Char)
    (cs : List Char) :
    ∀ (f₁ f₂ : Nat) (s : List Char), s.length < f₁ → s.length < f₂ →
      findBetweenAux o os c cs f₁ s = findBetweenAux o os c cs f₂ s := by
  intro f₁
  induction f₁ with
  | zero => intro f₂ s h1 _; omega
  | succ f₁ ih =>
    intro f₂ s h1 h2
    cases f₂ with
    | zero => omega
    | succ f₂ =>
      simp only [findBetweenAux]
      cases hopen : splitAtSub (o :: os) s with
      | none => rfl
      | some p1 =>
        obtain ⟨pre, afterOpen⟩ := p1
        cases hclose : splitAtSub (c :: cs) afterOpen with
        | none => simp [hclose]
        | some p2 =>
          obtain ⟨content, afterClose⟩ := p2
          have hlo := splitAtSub_post_length_lt (o :: os) (by simp) s _ _ hopen
          have hlc := splitAtSub_post_length_lt (c :: cs) (by simp) afterOpen _ _ hclose
          have hrec := ih f₂ afterClose (by omega) (by omega)
          simp [hclose, hrec]

/-- Embedding of the lazy findall over `openTag(.*?)closeTag` on `s`. -/
def findBetween (o : Char) (os : List Char) (c : Char) (cs : List Char)
    (s : List Char) : List (List Char) :=
  findBetweenAux o os c cs (s.length + 1) s

/-- Embedding of the row findall over `<tr>(.*?)</tr>` on the description. -/
def extractHtmlRows (d : List Char) : List (List Char) :=
  findBetween '<' ['t', 'r', '>'] '<' ['/', 't', 'r', '>'] d

/-- Embedding of the cell findall over `<td>(.*?)</td>` on a row. -/
def extractHtmlCells (row : List Char) : List (List Char) :=
  findBetween '<' ['t', 'd', '>'] '<' ['/', 't', 'd', '>'] row

/-- Body of the HTML-table row loop: cells are taken verbatim (no strip). -/
def htmlRowStep (row : List Char) : Option TestStep :=
  let cells := extractHtmlCells row
  if cells.length ≥ 3 then
    some ⟨String.mk (cells.getD 0 []), String.mk (cells.getD 1 []),
          String.mk (cells.getD 2 [])⟩
  else none

/-- The HTML-table branch: all rows after the first (`rows[1:]`). -/
def extractHtmlSteps (d : List Char) : List TestStep :=
  ((extractHtmlRows d).drop 1).filterMap htmlRowStep

/-- Embedding of the extraction entry point of the Jira client. -/
def extract_test_steps_from_description (description : String) : List TestStep :=
  let d := description.toList
  if containsSub ['|', '|'] d then
    extractPipeLines (splitOnChar '\n' d) false
  else if containsSub "<table>".toList d || containsSub "<tbody>".toList d then
    extractHtmlSteps d
  else []

/-- A data row per the words of the claim: a line beginning with a pipe
contributes a step exactly when its cleaned cells number at least 3. -/
def pipeDataRow (line : List Char) : Option TestStep :=
  if List.isPrefixOf ['|'] line then rowTestStep line else none

/-- Drop everything up to and including the first line beginning with a
double pipe (the header); `none` when no such line exists. -/
def dropThroughHeader : List (List Char) → Option (List (List Char))
  | [] => none
  | line :: rest =>
    if List.isPrefixOf ['|', '|'] line then some rest else dropThroughHeader rest

/-- The pipe-table extraction as the specification words it (refinement
target for the loop in the code): skip the first double-pipe header line, then
each subsequent pipe line contributes exactly one step, in source order,
iff it yields at least 3 cleaned cells. -/
def specPipeSteps (lines : List (List Char)) : List TestStep :=
  match dropThroughHeader lines with
  | none => []
  | some dataLines => dataLines.filterMap pipeDataRow

/-! ### Data model (models.py, jira_client._process_test_case, main.py) -/

/-- A test case as produced by `JiraClient._process_test_case`. -/
structure TestCase where
  key : String
  tid : String
  summary : String
  status : String
  test_steps : List TestStep
deriving DecidableEq

/-- One step outcome inside a submission (models.TestStepResult). -/
structure StepResult where
  test_step : String
  log_or_error : String
  result : String
  timestamp : String
deriving DecidableEq

/-- A local completion record as written by `send_test_results`
(`{test_case_key, steps_results, overall_result, timestamp}`); the
timestamp is modelled as an opaque number. -/
structure TestResult where
  test_case_key : String
  steps_results : List StepResult
  overall_result : String
  timestamp : Nat
deriving DecidableEq

/-! ### Local result store (utils.py) -/

/-- Embedding of `utils.get_completed_test_keys`: keys of records whose
`overall_result` is "Pass" or "Fail". -/
def get_completed_test_keys (results : List TestResult) : List String :=
  (results.filter
      (fun r => r.overall_result == "Pass" || r.overall_result == "Fail")).map
    (fun r => r.test_case_key)

/-- The collection transformation inside `utils.update_test_result`: replace
the first record whose `test_case_key` matches, else append. -/
def update_results_collection : List TestResult → TestResult → List TestResult
  | [], tr => [tr]
  | r :: rest, tr =>
    if r.test_case_key = tr.test_case_key then tr :: rest
    else r :: update_results_collection rest tr

/-- Embedding of `utils.update_test_result`: load, replace-or-append, save.
The boolean models the return value of `save_test_results` (false when the
write raised). -/
def update_test_result (saveOk : Bool) (stored : List TestResult)
    (tr : TestResult) : Bool × List TestResult :=
  (saveOk, update_results_collection stored tr)

/-! ### Jira environment and dependency resolution (dependency_resolver.py) -/

/-- Embedding of `link.type` in Jira: a name, and an `inward` label that may be absent
(accessing an absent attribute raises, caught by the enclosing `except`). -/
structure LinkType where
  name : String
  inward : Option String
deriving DecidableEq

/-- One entry of `issue.fields.issuelinks`. `inwardIssue` / `outwardIssue`
are `some key` exactly when `hasattr` succeeds; `linkType` is `none` when
the `type` attribute is missing (access raises). -/
structure IssueLink where
  inwardIssue : Option String
  outwardIssue : Option String
  linkType : Option LinkType
deriving DecidableEq

/-- The part of a fetched issue inspected by `_find_dependencies`:
`none` models a missing or falsy `issuelinks` attribute. -/
structure Issue where
  issuelinks : Option (List IssueLink)
deriving DecidableEq

/-- The tracker as seen by the resolver: status queries, key lookup
(`get_test_case_by_key`, which catches its own errors and returns `none`),
and the raw issue fetch `jira.issue` (which may raise: `Except.error`). -/
structure JiraEnv where
  byStatus : String → List TestCase
  byKey : String → Option TestCase
  fetchIssue : String → Except Unit Issue

/-- The `elif` arm of the link loop: the link has an `outwardIssue`
attribute, its lowercased type name equals the blocks label, and the
lowercased inward label contains the word outward. -/
def elifOutward (link : IssueLink) : Except Unit (Option String) :=
  if link.outwardIssue.isSome then
    match link.linkType with
    | none => Except.error ()
    | some lt =>
      if lowerStr lt.name = "blocks" then
        match lt.inward with
        | none => Except.error ()
        | some inw =>
          Except.ok (if containsSub "outward".toList (lowerStr inw).toList
                     then link.outwardIssue else none)
      else Except.ok none
  else Except.ok none

/-- One iteration of the link loop in `_find_dependencies`: `ok (some k)`
appends `k`, `ok none` appends nothing, `error` models a raised exception. -/
def processLink (link : IssueLink) : Except Unit (Option String) :=
  if link.inwardIssue.isSome then
    match link.linkType with
    | none => Except.error ()
    | some lt =>
      if lowerStr lt.name = "blocks" ∨ lowerStr lt.name = "is blocked by" then
        Except.ok link.inwardIssue
      else elifOutward link
  else elifOutward link

/-- The link loop with the surrounding `try`: an exception aborts the loop
and the `except` handler falls through to `return dependencies`, so the
dependencies accumulated so far are returned. -/
def collectDeps : List IssueLink → List String → List String
  | [], acc => acc
  | link :: rest, acc =>
    match processLink link with
    | Except.error _ => acc
    | Except.ok none => collectDeps rest acc
    | Except.ok (some k) => collectDeps rest (acc ++ [k])

/-- Embedding of the private dependency search of the resolver. -/
def find_dependencies (env : JiraEnv) (testKey : String) : List String :=
  match env.byKey testKey with
  | none => []
  | some _ =>
    match env.fetchIssue testKey with
    | Except.error _ => []
    | Except.ok issue =>
      match issue.issuelinks with
      | none => []
      | some links => collectDeps links []

/-- Whether the link loop raises (and is caught) somewhere. -/
def linksRaise : List IssueLink → Bool
  | [] => false
  | link :: rest =>
    match processLink link with
    | Except.error _ => true
    | Except.ok _ => linksRaise rest

/-- Whether an exception is raised (and caught) anywhere inside
`_find_dependencies` for this key: either the raw issue fetch fails, or
parsing some link fails. -/
def depLookupRaises (env : JiraEnv) (testKey : String) : Bool :=
  match env.byKey testKey with
  | none => false
  | some _ =>
    match env.fetchIssue testKey with
    | Except.error _ => true
    | Except.ok issue =>
      match issue.issuelinks with
      | none => false
      | some links => linksRaise links

/-- Embedding of the private executability test of the resolver, with the cached
completed-set snapshot passed explicitly. -/
def can_execute_test (completed : List String) (env : JiraEnv)
    (test : TestCase) : Bool :=
  if test.key ∈ completed then false
  else (find_dependencies env test.key).all (fun dep => decide (dep ∈ completed))

/-- The accumulation loop of `find_executable_tests`. -/
def execLoop (completed : List String) (env : JiraEnv) :
    List TestCase → List TestCase
  | [] => []
  | t :: ts =>
    if can_execute_test completed env t then t :: execLoop completed env ts
    else execLoop completed env ts

/-- Embedding of `find_executable_tests` of the resolver. -/
def find_executable_tests (completed : List String) (env : JiraEnv)
    (status : String) : List TestCase :=
  execLoop completed env (env.byStatus status)

/-- Embedding of `get_next_test` of the resolver. -/
def get_next_test (completed : List String) (env : JiraEnv) : Option TestCase :=
  match find_executable_tests completed env "To Do" with
  | [] => none
  | t :: _ => some t

/-! ### Endpoint-level reconciliation (main.py) -/

/-- The `incomplete_keys` computation shared by `/incomplete-tests` and
`/send-test-results`: `(todo ∪ in_progress) - done - completed`. -/
def incomplete_test_keys (todo inprog done : List TestCase)
    (completedKeys : List String) : Finset String :=
  (((todo.map TestCase.key).toFinset ∪ (inprog.map TestCase.key).toFinset) \
      (done.map TestCase.key).toFinset) \ completedKeys.toFinset

/-- Outcome of `/send-test-results`: the 500 "Failed to update test results"
response, or the success payload `{has_more_tests, remaining_test_count}`. -/
inductive SubmitResponse where
  | failure : SubmitResponse
  | success : Bool → Nat → SubmitResponse
deriving DecidableEq

/-- Embedding of `main.send_test_results`: update the local store; on save failure answer
the 500 response; otherwise recompute the completed keys from the updated
store and report the remaining incomplete tests. -/
def send_test_results (saveOk : Bool) (stored : List TestResult)
    (submission : TestResult) (todo inprog done : List TestCase) :
    SubmitResponse :=
  let upd := update_test_result saveOk stored submission
  if upd.1 then
    let completedKeys := get_completed_test_keys upd.2
    let incomplete := incomplete_test_keys todo inprog done completedKeys
    SubmitResponse.success (decide (0 < incomplete.card)) incomplete.card
  else SubmitResponse.failure

/-! ### Concrete fixtures used by witnesses and counterexamples -/

/-- The pipe-table scenario from the specification. -/
def pipeScenario : String :=
  "||Test|Step|Expected||\n|Login|Enter user|Dashboard shown|"

/-- An HTML-table description whose second row has a cell with leading
whitespace. -/
def htmlScenario : String :=
  "<table><tr><td>h</td></tr><tr><td> a</td><td>b</td><td>c</td></tr></table>"

def tcA : TestCase := ⟨"A", "1", "test a", "To Do", []⟩
def tcB : TestCase := ⟨"B", "2", "test b", "To Do", []⟩
def tcC : TestCase := ⟨"C", "3", "test c", "In Progress", []⟩
def tcD : TestCase := ⟨"D", "4", "test d", "Done", []⟩
def tcX : TestCase := ⟨"TST-9", "9", "sample", "To Do", []⟩

/-- A record marking test "B" as passed. -/
def resultsB : List TestResult := [⟨"B", [], "Pass", 0⟩]

def resK1a : TestResult := ⟨"K1", [], "Pass", 0⟩
def resK1b : TestResult := ⟨"K1", [], "Fail", 1⟩

/-- A well-formed "blocked by" link contributing dependency "DEP-1". -/
def goodLink : IssueLink := ⟨some "DEP-1", none, some ⟨"Blocks", some "is blocked by"⟩⟩

/-- A link whose `type` attribute is missing: processing it raises. -/
def badLink : IssueLink := ⟨some "DEP-2", none, none⟩

/-- Environment where fetching issue "TST-9" succeeds but parsing its second
link raises after the first link already contributed a dependency. -/
def envCex : JiraEnv :=
  ⟨fun _ => [],
   fun k => if k = "TST-9" then some tcX else none,
   fun k => if k = "TST-9" then Except.ok ⟨some [goodLink, badLink]⟩
            else Except.error ()⟩

/-- Environment where the key resolves but the raw issue fetch raises. -/
def envFetchFail : JiraEnv :=
  ⟨fun _ => [tcX], fun _ => some tcX, fun _ => Except.error ()⟩

/-! ### Claim theorems -/

/-- Claim C3: `completed_keys()` contains exactly the `test_case_key` of
records whose `overall_result` is "Pass" or "Fail"; any other value (e.g.
"Blocked") never contributes a key. -/
theorem completed_keys_characterization :
    ∀ (results : List TestResult) (k : String),
      k ∈ get_completed_test_keys results ↔
        ∃ r ∈ results, r.test_case_key = k ∧
          (r.overall_result = "Pass" ∨ r.overall_result = "Fail") := by
  intro results k
  simp only [get_completed_test_keys, List.mem_map, List.mem_filter,
    Bool.or_eq_true, beq_iff_eq]
  constructor
  · rintro ⟨r, ⟨hr, hor⟩, hk⟩
    exact ⟨r, hr, hk, hor⟩
  · rintro ⟨r, hr, hk, hor⟩
    exact ⟨r, ⟨hr, hor⟩, hk⟩

/-- Claim C10: updating a result leaves every record with a different
`test_case_key` unchanged in content and relative order. -/
theorem update_preserves_other_records :
    ∀ (results : List TestResult) (tr : TestResult),
      (update_results_collection results tr).filter
          (fun r => r.test_case_key != tr.test_case_key) =
        results.filter (fun r => r.test_case_key != tr.test_case_key) := by
  intro results tr
  induction results with
  | nil => simp [update_results_collection]
  | cons r rest ih =>
    by_cases h : r.test_case_key = tr.test_case_key
    · simp [update_results_collection, h, List.filter_cons]
    · simp only [update_results_collection, if_neg h, List.filter_cons]
      rw [ih]

/-- Claim C2: `can_execute` is false whenever the key is in the cached
completed set; otherwise it is true iff every dependency key is in the
cached completed set, and in particular true when there are none. -/
theorem can_execute_characterization :
    ∀ (completed : List String) (env : JiraEnv) (test : TestCase),
      (test.key ∈ completed → can_execute_test completed env test = false) ∧
      (test.key ∉ completed →
        (can_execute_test completed env test = true ↔
          ∀ dep ∈ find_dependencies env test.key, dep ∈ completed)) ∧
      (test.key ∉ completed → find_dependencies env test.key = [] →
        can_execute_test completed env test = true) := by
  intro completed env test
  refine ⟨fun h => ?_, fun h => ?_, fun h hdeps => ?_⟩
  · simp [can_execute_test, h]
  · simp [can_execute_test, h, List.all_eq_true]
  · simp [can_execute_test, h, hdeps]

theorem can_execute_characterization_witness :
    can_execute_test ["TST-9"] envCex tcX = false ∧
    can_execute_test [] envFetchFail tcX = true :=
  ⟨(can_execute_characterization ["TST-9"] envCex tcX).1 (by decide),
   (can_execute_characterization [] envFetchFail tcX).2.2 (by decide) (by decide)⟩

/-- Claim C8: when saving the updated record collection fails,
`update_test_result` returns false and the endpoint answers the 500
response — never the success payload. -/
theorem save_failure_is_reported :
    ∀ (saveOk : Bool) (stored : List TestResult) (submission : TestResult)
      (todo inprog done : List TestCase),
      saveOk = false →
      (update_test_result saveOk stored submission).1 = false ∧
      send_test_results saveOk stored submission todo inprog done =
        SubmitResponse.failure ∧
      ∀ (b : Bool) (n : Nat),
        send_test_results saveOk stored submission todo inprog done ≠
          SubmitResponse.success b n := by
  intro saveOk stored submission todo inprog done h
  subst h
  refine ⟨rfl, rfl, ?_⟩
  intro b n hcontra
  exact SubmitResponse.noConfusion hcontra

theorem save_failure_is_reported_witness :
    send_test_results false [] resK1a [] [] [] = SubmitResponse.failure :=
  (save_failure_is_reported false [] resK1a [] [] [] rfl).2.1

/-- The resolver loop retains exactly the executable candidates, in order. -/
theorem execLoop_eq_filter :
    ∀ (completed : List String) (env : JiraEnv) (ts : List TestCase),
      execLoop completed env ts = ts.filter (can_execute_test completed env) := by
  intro completed env ts
  induction ts with
  | nil => rfl
  | cons t ts ih =>
    by_cases h : can_execute_test completed env t
    · simp only [execLoop, if_pos h, List.filter_cons, h, ih]
    · simp only [execLoop, if_neg h, List.filter_cons]
      rw [ih]

/-- Claim C9: `find_executable` keeps exactly the candidates for which
`can_execute` holds, preserving relative order, and `next_test` is the head
of `find_executable("To Do")`, none exactly when that list is empty. -/
theorem find_executable_is_filter :
    ∀ (completed : List String) (env : JiraEnv) (status : String),
      find_executable_tests completed env status =
        (env.byStatus status).filter (can_execute_test completed env) ∧
      get_next_test completed env =
        (find_executable_tests completed env "To Do").head? ∧
      (get_next_test completed env = none ↔
        find_executable_tests completed env "To Do" = []) := by
  intro completed env status
  refine ⟨execLoop_eq_filter completed env (env.byStatus status), ?_, ?_⟩
  · unfold get_next_test
    cases find_executable_tests completed env "To Do" <;> rfl
  · unfold get_next_test
    cases find_executable_tests completed env "To Do" <;> simp

/-- Claim C1: a key is outstanding iff it is in the To Do or In Progress
bucket, not in the Done bucket, and not locally completed; hence a key
absent from both active buckets is never outstanding. -/
theorem incomplete_tests_characterization :
    ∀ (todo inprog done : List TestCase) (results : List TestResult) (k : String),
      (k ∈ incomplete_test_keys todo inprog done (get_completed_test_keys results) ↔
        ((k ∈ todo.map TestCase.key ∨ k ∈ inprog.map TestCase.key) ∧
          k ∉ done.map TestCase.key ∧ k ∉ get_completed_test_keys results)) ∧
      (k ∉ todo.map TestCase.key → k ∉ inprog.map TestCase.key →
        k ∉ incomplete_test_keys todo inprog done (get_completed_test_keys results)) := by
  intro todo inprog done results k
  have hmem : k ∈ incomplete_test_keys todo inprog done
      (get_completed_test_keys results) ↔
      ((k ∈ todo.map TestCase.key ∨ k ∈ inprog.map TestCase.key) ∧
        k ∉ done.map TestCase.key ∧ k ∉ get_completed_test_keys results) := by
    simp [incomplete_test_keys, Finset.mem_sdiff, Finset.mem_union,
      List.mem_toFinset, and_assoc]
  refine ⟨hmem, fun h1 h2 hk => ?_⟩
  rcases (hmem.mp hk).1 with h | h
  · exact h1 h
  · exact h2 h

theorem incomplete_tests_characterization_witness :
    "E" ∉ incomplete_test_keys [tcA, tcB] [tcC] [tcD]
        (get_completed_test_keys resultsB) ∧
    incomplete_test_keys [tcA, tcB] [tcC] [tcD]
        (get_completed_test_keys resultsB) = {"A", "C"} :=
  ⟨(incomplete_tests_characterization [tcA, tcB] [tcC] [tcD] resultsB "E").2
      (by decide) (by decide),
   by decide⟩

/-- The key list of an updated collection: unchanged when the submitted key
was already present, else extended by exactly that key at the end. -/
theorem update_results_keys (results : List TestResult) (tr : TestResult) :
    (update_results_collection results tr).map (fun r => r.test_case_key) =
      if tr.test_case_key ∈ results.map (fun r => r.test_case_key)
      then results.map (fun r => r.test_case_key)
      else results.map (fun r => r.test_case_key) ++ [tr.test_case_key] := by
  induction results with
  | nil => simp [update_results_collection]
  | cons r rest ih =>
    by_cases h : r.test_case_key = tr.test_case_key
    · simp [update_results_collection, h, List.map_cons, List.mem_cons]
    · simp only [update_results_collection, if_neg h, List.map_cons, ih]
      by_cases hm : tr.test_case_key ∈ rest.map (fun r => r.test_case_key)
      · simp [hm, List.mem_cons]
      · simp [hm, List.mem_cons, Ne.symm h]

theorem nodup_append_singleton {α : Type} (l : List α) (a : α)
    (hl : l.Nodup) (ha : a ∉ l) : (l ++ [a]).Nodup := by
  induction l with
  | nil => simp
  | cons x xs ih =>
    simp only [List.nodup_cons] at hl
    obtain ⟨hx, hxs⟩ := hl
    simp only [List.cons_append, List.nodup_cons]
    refine ⟨?_, ih hxs (fun hmem => ha (List.mem_cons_of_mem x hmem))⟩
    simp only [List.mem_append, List.mem_singleton]
    rintro (hmem | rfl)
    · exact hx hmem
    · exact ha (List.mem_cons_self ..)

theorem update_results_length_of_mem :
    ∀ (results : List TestResult) (tr : TestResult),
      tr.test_case_key ∈ results.map (fun r => r.test_case_key) →
      (update_results_collection results tr).length = results.length := by
  intro results tr
  induction results with
  | nil => intro hm; simp at hm
  | cons r rest ih =>
    intro hm
    by_cases h : r.test_case_key = tr.test_case_key
    · simp [update_results_collection, h]
    · simp only [List.map_cons, List.mem_cons] at hm
      rcases hm with heq | hm
      · exact absurd heq.symm h
      · simp only [update_results_collection, if_neg h, List.length_cons, ih hm]

/-- Claim C7: on a collection with at most one record per key, an update
replaces rather than appends, keeps the per-key uniqueness, and the updated
key occurs at most once among the completed keys. -/
theorem update_preserves_unique_keys :
    ∀ (results : List TestResult) (tr : TestResult),
      (results.map (fun r => r.test_case_key)).Nodup →
      ((update_results_collection results tr).map
          (fun r => r.test_case_key)).Nodup ∧
      (tr.test_case_key ∈ results.map (fun r => r.test_case_key) →
        (update_results_collection results tr).length = results.length) ∧
      (get_completed_test_keys (update_results_collection results tr)).count
          tr.test_case_key ≤ 1 := by
  intro results tr hnodup
  have hnodup' : ((update_results_collection results tr).map
      (fun r => r.test_case_key)).Nodup := by
    rw [update_results_keys results tr]
    by_cases hm : tr.test_case_key ∈ results.map (fun r => r.test_case_key)
    · simpa [hm] using hnodup
    · simp only [if_neg hm]
      exact nodup_append_singleton _ _ hnodup hm
  refine ⟨hnodup', update_results_length_of_mem results tr, ?_⟩
  have hsub : (get_completed_test_keys (update_results_collection results tr)).Sublist
      ((update_results_collection results tr).map (fun r => r.test_case_key)) := by
    unfold get_completed_test_keys
    exact List.Sublist.map _ (List.filter_sublist _)
  exact List.nodup_iff_count_le_one.mp (hnodup'.sublist hsub) _

theorem update_preserves_unique_keys_witness :
    ((update_results_collection [resK1a] resK1b).map
        (fun r => r.test_case_key)).Nodup ∧
    (update_results_collection [resK1a] resK1b).length = 1 ∧
    (get_completed_test_keys (update_results_collection [resK1a] resK1b)).count
        "K1" ≤ 1 := by
  have h := update_preserves_unique_keys [resK1a] resK1b (by decide)
  exact ⟨h.1, h.2.1 (by decide), h.2.2⟩

/-- Claim C6 is false as stated: in `envCex`, fetching issue "TST-9"
succeeds, the first link contributes "DEP-1", and parsing the second link
raises — the caught error leaves the partial list ["DEP-1"], not the empty
set, and that dependency makes `can_execute` false. -/
theorem dependency_error_nonempty_cex :
    depLookupRaises envCex "TST-9" = true ∧
    find_dependencies envCex "TST-9" = ["DEP-1"] ∧
    find_dependencies envCex "TST-9" ≠ [] ∧
    can_execute_test [] envCex tcX = false := by
  refine ⟨?_, ?_, ?_, ?_⟩ <;> decide

/-- Claim C6 (amended): an error in the raw issue fetch yields the empty
dependency set, and a parse error at some link aborts the loop, yielding
exactly the dependencies accumulated before that link; the error is always
swallowed. -/
theorem dependency_lookup_fail_open :
    (∀ (env : JiraEnv) (k : String), env.fetchIssue k = Except.error () →
        find_dependencies env k = []) ∧
    (∀ (pre post : List IssueLink) (link : IssueLink) (acc : List String),
        processLink link = Except.error () →
        collectDeps (pre ++ link :: post) acc = collectDeps pre acc) := by
  constructor
  · intro env k h
    unfold find_dependencies
    cases env.byKey k with
    | none => rfl
    | some tc => rw [h]
  · intro pre
    induction pre with
    | nil =>
      intro post link acc herr
      simp only [List.nil_append, collectDeps]
      rw [herr]
    | cons l ls ih =>
      intro post link acc herr
      simp only [List.cons_append, collectDeps]
      cases hpl : processLink l with
      | error e => rfl
      | ok v =>
        cases v with
        | none => exact ih post link acc herr
        | some k => exact ih post link (acc ++ [k]) herr

theorem dependency_lookup_fail_open_witness :
    find_dependencies envFetchFail "TST-9" = [] ∧
    collectDeps [goodLink, badLink] [] = collectDeps [goodLink] [] :=
  ⟨dependency_lookup_fail_open.1 envFetchFail "TST-9" rfl,
   dependency_lookup_fail_open.2 [goodLink] [] badLink [] rfl⟩

/-- Once the header flag is set, the loop is exactly a `filterMap` of
`pipeDataRow` over the remaining lines. -/
theorem extractPipeLines_after_header :
    ∀ (lines : List (List Char)),
      extractPipeLines lines true = lines.filterMap pipeDataRow := by
  intro lines
  induction lines with
  | nil => rfl
  | cons line rest ih =>
    by_cases h : List.isPrefixOf ['|'] line
    · cases hrow : rowTestStep line with
      | some st =>
        simp [extractPipeLines, List.filterMap_cons, pipeDataRow, h, hrow, ih]
      | none =>
        simp [extractPipeLines, List.filterMap_cons, pipeDataRow, h, hrow, ih]
    · simp [extractPipeLines, List.filterMap_cons, pipeDataRow, h, ih]

/-- The pipe loop of the code computes exactly what the spec describes. -/
theorem extractPipe_eq_specPipe :
    ∀ (lines : List (List Char)),
      extractPipeLines lines false = specPipeSteps lines := by
  intro lines
  induction lines with
  | nil => rfl
  | cons line rest ih =>
    by_cases h : List.isPrefixOf ['|', '|'] line
    · simp [extractPipeLines, specPipeSteps, dropThroughHeader, h,
        extractPipeLines_after_header]
    · have hdrop : dropThroughHeader (line :: rest) = dropThroughHeader rest := by
        simp [dropThroughHeader, h]
      have hspec : specPipeSteps (line :: rest) = specPipeSteps rest := by
        simp only [specPipeSteps, hdrop]
      rw [hspec, ← ih]
      simp [extractPipeLines, h]

/-- Claim C4: on every description in the pipe-table encoding, extraction
skips the first double-pipe line as the header and each subsequent pipe
line contributes exactly one step, in source order, iff splitting on the
pipe character, trimming, and discarding empty cells yields at least 3
cells — the first three taken as the step, extras ignored; the header row
never yields a step. -/
theorem pipe_extraction_matches_spec :
    ∀ (description : String),
      containsSub ['|', '|'] description.toList = true →
      extract_test_steps_from_description description =
        specPipeSteps (splitOnChar '\n' description.toList) := by
  intro d hp
  simp only [extract_test_steps_from_description, hp, if_true]
  exact extractPipe_eq_specPipe _

theorem pipe_extraction_matches_spec_witness :
    extract_test_steps_from_description pipeScenario =
      specPipeSteps (splitOnChar '\n' pipeScenario.toList) ∧
    extract_test_steps_from_description pipeScenario =
      [⟨"Login", "Enter user", "Dashboard shown"⟩] :=
  ⟨pipe_extraction_matches_spec pipeScenario (by decide), by decide⟩

/-- Claim C5 is false as stated: the HTML-table branch takes cell contents
verbatim, so this description yields a step whose first cell " a" keeps its
leading whitespace. -/
theorem html_cells_not_trimmed_cex :
    (⟨" a", "b", "c"⟩ : TestStep) ∈ extract_test_steps_from_description htmlScenario ∧
    trimChars " a".toList ≠ " a".toList := by
  refine ⟨?_, ?_⟩ <;> decide

theorem trimRight_idem : ∀ (s : List Char), trimRight (trimRight s) = trimRight s := by
  intro s
  induction s with
  | nil => rfl
  | cons c rest ih =>
    have hcons : trimRight (c :: rest) =
        if (trimRight rest).isEmpty && isPySpace c then []
        else c :: trimRight rest := rfl
    rw [hcons]
    by_cases h : (trimRight rest).isEmpty && isPySpace c
    · rw [if_pos h]; rfl
    · rw [if_neg h]
      have hcons2 : trimRight (c :: trimRight rest) =
          if (trimRight (trimRight rest)).isEmpty && isPySpace c then []
          else c :: trimRight (trimRight rest) := rfl
      rw [hcons2, ih, if_neg h]

theorem dropWhile_isPySpace_idem : ∀ (l : List Char),
    (l.dropWhile isPySpace).dropWhile isPySpace = l.dropWhile isPySpace := by
  intro l
  induction l with
  | nil => rfl
  | cons c rest ih =>
    by_cases h : isPySpace c
    · simp [List.dropWhile_cons, h, ih]
    · simp [List.dropWhile_cons, h]

theorem trim_head_not_space : ∀ (c : Char) (rest : List Char),
    (c :: rest).dropWhile isPySpace = c :: rest → isPySpace c = false := by
  intro c rest h
  by_cases hc : isPySpace c
  · rw [List.dropWhile_cons, if_pos hc] at h
    have hlen := congrArg List.length h
    have hle := (List.dropWhile_sublist (l := rest) isPySpace).length_le
    simp only [List.length_cons] at hlen
    omega
  · simpa using hc

theorem dropWhile_trimRight : ∀ (l : List Char), l.dropWhile isPySpace = l →
    (trimRight l).dropWhile isPySpace = trimRight l := by
  intro l hl
  cases l with
  | nil => rfl
  | cons c rest =>
    have hc := trim_head_not_space c rest hl
    have hcons : trimRight (c :: rest) =
        if (trimRight rest).isEmpty && isPySpace c then []
        else c :: trimRight rest := rfl
    rw [hcons, hc]
    simp [List.dropWhile_cons, hc]

theorem trimChars_idem : ∀ (s : List Char), trimChars (trimChars s) = trimChars s := by
  intro s
  unfold trimChars
  rw [dropWhile_trimRight _ (dropWhile_isPySpace_idem s), trimRight_idem]

theorem mem_cleanCells_trimmed : ∀ (line cell : List Char),
    cell ∈ cleanCells line → trimChars cell = cell := by
  intro line cell hmem
  unfold cleanCells at hmem
  rw [List.mem_filter] at hmem
  obtain ⟨hmap, -⟩ := hmem
  rw [List.mem_map] at hmap
  obtain ⟨raw, -, hraw⟩ := hmap
  rw [← hraw, trimChars_idem]

theorem rowTestStep_cells_trimmed : ∀ (line : List Char) (st : TestStep),
    rowTestStep line = some st →
    trimChars st.test.toList = st.test.toList ∧
    trimChars st.test_step.toList = st.test_step.toList ∧
    trimChars st.expected_output.toList = st.expected_output.toList := by
  intro line st h
  unfold rowTestStep at h
  by_cases hlen : (cleanCells line).length ≥ 3
  · rw [if_pos hlen] at h
    have hst := Option.some.inj h
    subst hst
    have hm : ∀ i, i < (cleanCells line).length →
        (cleanCells line).getD i [] ∈ cleanCells line := by
      intro i hi
      rw [List.getD_eq_getElem _ _ hi]
      exact List.getElem_mem hi
    refine ⟨?_, ?_, ?_⟩
    · exact mem_cleanCells_trimmed line _ (hm 0 (by omega))
    · exact mem_cleanCells_trimmed line _ (hm 1 (by omega))
    · exact mem_cleanCells_trimmed line _ (hm 2 (by omega))
  · rw [if_neg hlen] at h
    exact absurd h (by simp)

theorem mem_extractPipeLines : ∀ (lines : List (List Char)) (hf : Bool)
    (st : TestStep), st ∈ extractPipeLines lines hf →
      ∃ line, rowTestStep line = some st := by
  intro lines
  induction lines with
  | nil => intro hf st h; simp [extractPipeLines] at h
  | cons line rest ih =>
    intro hf st h
    simp only [extractPipeLines] at h
    by_cases h1 : List.isPrefixOf ['|', '|'] line && !hf
    · rw [if_pos h1] at h
      exact ih true st h
    · rw [if_neg h1] at h
      by_cases h2 : List.isPrefixOf ['|'] line && hf
      · rw [if_pos h2] at h
        cases hrow : rowTestStep line with
        | some st' =>
          rw [hrow] at h
          rcases List.mem_cons.mp h with rfl | hmem
          · exact ⟨line, hrow⟩
          · exact ih hf st hmem
        | none =>
          rw [hrow] at h
          exact ih hf st h
      · rw [if_neg h2] at h
        exact ih hf st h

/-- Claim C5 (amended): in the pipe-table encoding every extracted cell is
trimmed; in both encodings a row with fewer than 3 cells is silently
dropped (the extractor is total; HTML cells are taken verbatim). -/
theorem extracted_pipe_cells_trimmed :
    (∀ (d : String), containsSub ['|', '|'] d.toList = true →
      ∀ st ∈ extract_test_steps_from_description d,
        trimChars st.test.toList = st.test.toList ∧
        trimChars st.test_step.toList = st.test_step.toList ∧
        trimChars st.expected_output.toList = st.expected_output.toList) ∧
    (∀ (line : List Char), (cleanCells line).length < 3 →
      rowTestStep line = none) ∧
    (∀ (row : List Char), (extractHtmlCells row).length < 3 →
      htmlRowStep row = none) := by
  refine ⟨?_, ?_, ?_⟩
  · intro d hp st hmem
    simp only [extract_test_steps_from_description, hp, if_true] at hmem
    obtain ⟨line, hrow⟩ := mem_extractPipeLines _ _ _ hmem
    exact rowTestStep_cells_trimmed line st hrow
  · intro line hlen
    simp only [rowTestStep]
    rw [if_neg (by omega)]
  · intro row hlen
    simp only [htmlRowStep]
    rw [if_neg (by omega)]

theorem extracted_pipe_cells_trimmed_witness :
    trimChars ("Login" : String).toList = ("Login" : String).toList :=
  (extracted_pipe_cells_trimmed.1 pipeScenario (by decide)
      ⟨"Login", "Enter user", "Dashboard shown"⟩ (by decide)).1

end AutoServer
